import Mathlib

/-!
Shallow embedding of JotPrintBot's core: the entity segmenter
(`src/formatter.py`), the print-task model (`src/print_tasks.py`) and the
rendering engine / delivery queue (`src/printer.py`), together with proofs of
the spec's claims about them.

Text is modelled as `List Char` (Python strings are sequences of code points).
Telegram UTF-16 offsets are modelled exactly as the source converts them.
-/

namespace JotPrint

/-- Python strings are code-point sequences; we model them as `List Char`. -/
abbrev Str := List Char

/-- Number of UTF-16 code units of one code point
(`len(ch.encode("utf-16-le")) // 2` in `formatter.py`): 1 below U+10000,
2 for supplementary-plane characters (surrogate pair). -/
def utf16Units (c : Char) : Nat :=
  if c.toNat < 0x10000 then 1 else 2

/-- The loop of `_utf16_range_to_py_slice` building `char_to_cu`: for each
character, append the running code-unit index, then advance it. -/
def charToCuAux (cuIndex : Nat) : Str → List Nat
  | [] => []
  | c :: cs => cuIndex :: charToCuAux (cuIndex + utf16Units c) cs

/-- `char_to_cu`: for each character index, its starting UTF-16 code-unit
index (prefix sums of `utf16Units`). -/
def charToCu (text : Str) : List Nat :=
  charToCuAux 0 text

/-- `total_cu`: total number of UTF-16 code units of the text. -/
def totalCu (text : Str) : Nat :=
  (text.map utf16Units).sum

/-- The scan of `cu_to_char_index`: index of the first element `≥ target`,
or the length of the list when none is. -/
def firstGe (target : Nat) : List Nat → Nat
  | [] => 0
  | cu :: rest => if target ≤ cu then 0 else firstGe target rest + 1

/-- `cu_to_char_index`: first character index whose starting code-unit index
is `≥ target`, else `len(text)` (which equals `len(char_to_cu)`). -/
def cuToCharIndex (text : Str) (target : Nat) : Nat :=
  firstGe target (charToCu text)

/-- `_utf16_range_to_py_slice`: convert a Telegram UTF-16 code-unit range to
Python slice indices, clamping out-of-range values to the text bounds.
`offset` and `length` are `Int` because Telegram values may be negative. -/
def utf16_range_to_py_slice (text : Str) (offset length : Int) : Nat × Nat :=
  if text = [] then (0, 0)
  else
    let total : Int := (totalCu text : Int)
    let startCu : Int := max 0 (min offset total)
    let endCu : Int := max startCu (min (offset + length) total)
    (cuToCharIndex text startCu.toNat, cuToCharIndex text endCu.toNat)

/-- A raw `MessageEntity` as received from Telegram. `malformed` models an
entity whose attribute access / type conversion raises inside the
`try`-block of `_extract_entities` (the `except Exception: continue` path). -/
inductive RawEntity where
  | valid (type : String) (offset : Int) (length : Int)
  | malformed
  deriving DecidableEq, Repr

/-- `_extract_entities`: normalized `(start_index, end_index, entity_type)`
triples in Python (code point) indices; malformed entities are skipped, and
entities whose converted range is empty (`start ≥ end`) are dropped. -/
def extract_entities (text : Str) (entities : List RawEntity) :
    List (Nat × Nat × String) :=
  entities.foldr
    (fun ent acc =>
      match ent with
      | .malformed => acc
      | .valid ty off len =>
          let se := utf16_range_to_py_slice text off len
          if se.1 < se.2 then (se.1, se.2, ty) :: acc else acc)
    []

/-- ESC/POS style dictionary built by `build_print_job`. Each field being
`some v` models the corresponding key being present in the Python dict
(`style["bold"] = True`, etc.); `none` models an absent key. -/
@[ext]
structure Style where
  bold : Option Bool := none
  underline : Option Nat := none
  invert : Option Bool := none
  font : Option String := none
  double_height : Option Bool := none
  double_width : Option Bool := none
  deriving DecidableEq, Repr

/-- The empty style dict `{}`. -/
def Style.empty : Style := {}

/-- A printable segment (`Segment` dataclass in `formatter.py`). -/
structure Segment where
  text : Str
  style : Style
  deriving DecidableEq, Repr

/-- `PrintJob = List[Segment]`. -/
abbrev PrintJob := List Segment

/-- The style dict built from the set of entity types covering a sub-range
(the chain of `if ... in active_types` statements in `build_print_job`).
`active_types` is a Python set; we carry a list, and only membership is
used, so duplicates are irrelevant. -/
def styleFor (types : List String) : Style where
  bold := if "bold" ∈ types then some true else none
  underline := if "underline" ∈ types then some 1 else none
  invert := if "strikethrough" ∈ types then some true else none
  font := if "code" ∈ types ∨ "pre" ∈ types then some "b" else none
  double_height := if "blockquote" ∈ types then some true else none
  double_width := if "blockquote" ∈ types then some true else none

/-- Python slice `text[s:e]`. -/
def slice (text : Str) (s e : Nat) : Str :=
  (text.drop s).take (e - s)

/-- The set comprehension collecting all entities covering the whole
sub-range `[segStart, segEnd)`:
`{etype for (start, end, etype) in norm if start <= seg_start and end >= seg_end}`. -/
def coveringTypes (norm : List (Nat × Nat × String)) (segStart segEnd : Nat) :
    List String :=
  (norm.filter (fun t => t.1 ≤ segStart ∧ segEnd ≤ t.2.1)).map (fun t => t.2.2)

/-- The `for i in range(len(ordered) - 1)` loop of `build_print_job`,
walking adjacent boundary pairs, skipping degenerate (`seg_start >= seg_end`)
and empty-text sub-ranges. -/
def segLoop (text : Str) (norm : List (Nat × Nat × String)) :
    List Nat → PrintJob
  | a :: b :: rest =>
      (if b ≤ a ∨ slice text a b = [] then []
       else [⟨slice text a b, styleFor (coveringTypes norm a b)⟩]) ++
      segLoop text norm (b :: rest)
  | _ => []

/-- The members of the boundary set
`{0, len(text)} ∪ {start, end of each normalized span}` (Python builds a
`set`; we collect the elements and deduplicate). -/
def boundaryList (text : Str) (norm : List (Nat × Nat × String)) : List Nat :=
  (0 :: text.length :: norm.foldr (fun t acc => t.1 :: t.2.1 :: acc) []).dedup

/-- `sorted(boundaries)`: the distinct boundaries in ascending order. -/
def orderedBoundaries (text : Str) (norm : List (Nat × Nat × String)) :
    List Nat :=
  (boundaryList text norm).insertionSort (· ≤ ·)

/-- `build_print_job`: convert text plus raw entities into a list of styled
segments. Empty text yields `[]`; no usable entities yields one unstyled
segment; otherwise segments are cut at span boundaries. -/
def build_print_job (text : Str) (entities : List RawEntity) : PrintJob :=
  if text = [] then []
  else
    let norm := extract_entities text entities
    if norm = [] then [⟨text, {}⟩]
    else
      segLoop text norm (orderedBoundaries text norm)

/-! ### Basic lemmas about the UTF-16 index conversion -/

theorem charToCuAux_length (cuIndex : Nat) (text : Str) :
    (charToCuAux cuIndex text).length = text.length := by
  induction text generalizing cuIndex with
  | nil => rfl
  | cons c cs ih => simp [charToCuAux, ih]

theorem charToCu_length (text : Str) : (charToCu text).length = text.length :=
  charToCuAux_length 0 text

theorem firstGe_le_length (target : Nat) (l : List Nat) :
    firstGe target l ≤ l.length := by
  induction l with
  | nil => simp [firstGe]
  | cons cu rest ih =>
      by_cases h : target ≤ cu <;> simp [firstGe, h] <;> omega

theorem firstGe_mono (l : List Nat) {t1 t2 : Nat} (h : t1 ≤ t2) :
    firstGe t1 l ≤ firstGe t2 l := by
  induction l with
  | nil => simp [firstGe]
  | cons cu rest ih =>
      by_cases h2 : t2 ≤ cu
      · simp [firstGe, h2, le_trans h h2]
      · by_cases h1 : t1 ≤ cu <;> simp [firstGe, h1, h2] <;> omega

theorem cuToCharIndex_le_length (text : Str) (target : Nat) :
    cuToCharIndex text target ≤ text.length := by
  have := firstGe_le_length target (charToCu text)
  rwa [charToCu_length] at this

theorem cuToCharIndex_mono (text : Str) {t1 t2 : Nat} (h : t1 ≤ t2) :
    cuToCharIndex text t1 ≤ cuToCharIndex text t2 :=
  firstGe_mono _ h

/-- Bounds of the converted slice: `start ≤ end ≤ len(text)`. -/
theorem utf16_range_bounds (text : Str) (offset length : Int) :
    (utf16_range_to_py_slice text offset length).1 ≤
      (utf16_range_to_py_slice text offset length).2 ∧
    (utf16_range_to_py_slice text offset length).2 ≤ text.length := by
  unfold utf16_range_to_py_slice
  by_cases h : text = []
  · simp [h]
  · simp only [h, if_false]
    refine ⟨cuToCharIndex_mono _ ?_, cuToCharIndex_le_length _ _⟩
    exact Int.toNat_le_toNat (le_max_left _ _)

/-- Every normalized entity has a strictly positive, in-bounds range. -/
theorem extract_entities_bounds (text : Str) (entities : List RawEntity) :
    ∀ x ∈ extract_entities text entities, x.1 < x.2.1 ∧ x.2.1 ≤ text.length := by
  intro x hx
  induction entities with
  | nil => simp [extract_entities] at hx
  | cons e rest ih =>
      unfold extract_entities at hx
      simp only [List.foldr_cons] at hx
      match e with
      | .malformed => exact ih hx
      | .valid ty off len =>
          dsimp only at hx
          by_cases hlt : (utf16_range_to_py_slice text off len).1 <
              (utf16_range_to_py_slice text off len).2
          · rw [if_pos hlt] at hx
            rcases List.mem_cons.mp hx with h | h
            · subst h
              exact ⟨hlt, (utf16_range_bounds text off len).2⟩
            · exact ih h
          · rw [if_neg hlt] at hx
            exact ih hx

/-- Skipping a malformed entity leaves the normalized list unchanged
(all remaining entities are still processed). -/
theorem extract_entities_skip_malformed (text : Str)
    (pre post : List RawEntity) :
    extract_entities text (pre ++ .malformed :: post) =
      extract_entities text (pre ++ post) := by
  unfold extract_entities
  induction pre with
  | nil => simp
  | cons e rest ih => simp [ih]

/-! ### Slice lemmas -/

theorem slice_self (text : Str) (a : Nat) : slice text a a = [] := by
  simp [slice]

theorem slice_full (text : Str) : slice text 0 text.length = text := by
  simp [slice]

theorem slice_append (text : Str) {x y z : Nat} (hxy : x ≤ y) (hyz : y ≤ z) :
    slice text x y ++ slice text y z = slice text x z := by
  unfold slice
  have hdrop : text.drop y = (text.drop x).drop (y - x) := by
    rw [List.drop_drop]
    congr 1
    omega
  rw [hdrop]
  have := List.take_add (text.drop x) (y - x) (z - y)
  rw [← this]
  congr 1
  omega

theorem slice_ne_nil (text : Str) {a b : Nat} (hab : a < b)
    (ha : a < text.length) : slice text a b ≠ [] := by
  unfold slice
  intro h
  rw [List.take_eq_nil_iff] at h
  rcases h with h | h
  · omega
  · rw [List.drop_eq_nil_iff] at h
    omega

theorem slice_nil_of_len_le (text : Str) {a b : Nat} (ha : text.length ≤ a) :
    slice text a b = [] := by
  unfold slice
  rw [List.drop_eq_nil_of_le ha]
  simp

/-! ### Adjacent boundary pairs and segment concatenation -/

/-- The adjacent pairs `(ordered[i], ordered[i+1])` walked by the segment
loop of `build_print_job`. -/
def adjPairs : List Nat → List (Nat × Nat)
  | a :: b :: rest => (a, b) :: adjPairs (b :: rest)
  | _ => []

/-- Concatenation of the texts of a print job, in order. -/
def joinTexts (job : PrintJob) : Str :=
  (job.map Segment.text).join

theorem joinTexts_nil : joinTexts [] = [] := rfl

theorem joinTexts_append (j1 j2 : PrintJob) :
    joinTexts (j1 ++ j2) = joinTexts j1 ++ joinTexts j2 := by
  simp [joinTexts]

theorem getLast_le_of_sorted : ∀ {l : List Nat}, l.Sorted (· ≤ ·) →
    ∀ {a : Nat}, a ∈ l → ∀ (h : l ≠ []), a ≤ l.getLast h
  | [], _, _, ha, _ => absurd ha (by simp)
  | [x], _, a, ha, _ => by
      simp at ha
      simp [ha, List.getLast]
  | x :: y :: ys, hs, a, ha, _ => by
      have hne : (y :: ys) ≠ [] := by simp
      rw [List.getLast_cons hne]
      rcases List.mem_cons.mp ha with rfl | hmem
      · exact List.rel_of_sorted_cons hs _ (List.getLast_mem hne)
      · exact getLast_le_of_sorted hs.of_cons hmem hne

theorem sorted_head_eq_zero {x : Nat} {rest : List Nat}
    (hs : (x :: rest).Sorted (· ≤ ·)) (h0 : 0 ∈ x :: rest) : x = 0 := by
  rcases List.mem_cons.mp h0 with h | h
  · omega
  · have := List.rel_of_sorted_cons hs _ h
    omega

/-- Concatenating the slices over adjacent pairs of a `≤`-sorted boundary
list yields the slice from the first boundary to the last. -/
theorem joinTexts_segLoop (text : Str) (norm : List (Nat × Nat × String)) :
    ∀ (l : List Nat) (a : Nat), (a :: l).Sorted (· ≤ ·) →
      joinTexts (segLoop text norm (a :: l)) =
        slice text a ((a :: l).getLast (by simp)) := by
  intro l
  induction l with
  | nil =>
      intro a _
      simp [segLoop, joinTexts, slice_self, List.getLast]
  | cons b rest ih =>
      intro a hs
      have hab : a ≤ b := List.rel_of_sorted_cons hs _ (by simp)
      have htail : (b :: rest).Sorted (· ≤ ·) := hs.of_cons
      have hlast : ((a :: b :: rest).getLast (by simp)) =
          ((b :: rest).getLast (by simp)) := List.getLast_cons (by simp)
      have hblast : b ≤ (b :: rest).getLast (by simp) :=
        getLast_le_of_sorted htail (by simp) _
      rw [hlast]
      show joinTexts
        ((if b ≤ a ∨ slice text a b = [] then []
          else [⟨slice text a b, styleFor (coveringTypes norm a b)⟩]) ++
          segLoop text norm (b :: rest)) = _
      rw [joinTexts_append, ih b htail]
      by_cases hskip : b ≤ a ∨ slice text a b = []
      · rw [if_pos hskip, joinTexts_nil, List.nil_append]
        rcases hskip with hba | hempty
        · have hab2 : a = b := le_antisymm hab hba
          rw [hab2]
        · -- Empty slice with `a ≤ b` means the text ends at or before `a`,
          -- so both slices from `a` and from `b` are empty.
          rcases Nat.lt_or_ge a b with hlt | hge
          · have halen : text.length ≤ a := by
              by_contra hcon
              exact slice_ne_nil text hlt (by omega) hempty
            rw [slice_nil_of_len_le text halen,
              slice_nil_of_len_le text (le_trans halen hab)]
          · have hab2 : a = b := le_antisymm hab hge
            rw [hab2]
      · rw [if_neg hskip]
        have : joinTexts [⟨slice text a b,
            styleFor (coveringTypes norm a b)⟩] = slice text a b := by
          simp [joinTexts]
        rw [this]
        exact slice_append text hab hblast

theorem mem_boundaryFoldr {norm : List (Nat × Nat × String)} {x : Nat} :
    x ∈ norm.foldr (fun t acc => t.1 :: t.2.1 :: acc) ([] : List Nat) ↔
      ∃ t ∈ norm, x = t.1 ∨ x = t.2.1 := by
  induction norm with
  | nil => simp
  | cons t rest ih =>
      simp only [List.foldr_cons, List.mem_cons, ih]
      constructor
      · rintro (h | h | ⟨t2, ht2, h⟩)
        · exact ⟨t, Or.inl rfl, Or.inl h⟩
        · exact ⟨t, Or.inl rfl, Or.inr h⟩
        · exact ⟨t2, Or.inr ht2, h⟩
      · rintro ⟨t2, rfl | ht2, h⟩
        · rcases h with h | h
          · exact Or.inl h
          · exact Or.inr (Or.inl h)
        · exact Or.inr (Or.inr ⟨t2, ht2, h⟩)

theorem mem_orderedBoundaries {text : Str}
    {norm : List (Nat × Nat × String)} {x : Nat} :
    x ∈ orderedBoundaries text norm ↔
      x = 0 ∨ x = text.length ∨ ∃ t ∈ norm, x = t.1 ∨ x = t.2.1 := by
  rw [orderedBoundaries, List.mem_insertionSort, boundaryList,
    List.mem_dedup]
  simp only [List.mem_cons, mem_boundaryFoldr]

theorem orderedBoundaries_sorted_le (text : Str)
    (norm : List (Nat × Nat × String)) :
    (orderedBoundaries text norm).Sorted (· ≤ ·) :=
  List.sorted_insertionSort _ _

theorem orderedBoundaries_nodup (text : Str)
    (norm : List (Nat × Nat × String)) :
    (orderedBoundaries text norm).Nodup :=
  (List.perm_insertionSort _ _).nodup_iff.mpr (List.nodup_dedup _)

theorem sorted_lt_of_sorted_le_nodup : ∀ {l : List Nat},
    l.Sorted (· ≤ ·) → l.Nodup → l.Sorted (· < ·) := by
  intro l hs hn
  induction l with
  | nil => exact List.sorted_nil
  | cons a rest ih =>
      rw [List.sorted_cons] at hs ⊢
      rw [List.nodup_cons] at hn
      refine ⟨fun b hb => lt_of_le_of_ne (hs.1 b hb) ?_, ih hs.2 hn.2⟩
      intro he
      exact hn.1 (he ▸ hb)

theorem orderedBoundaries_sorted_lt (text : Str)
    (norm : List (Nat × Nat × String)) :
    (orderedBoundaries text norm).Sorted (· < ·) :=
  sorted_lt_of_sorted_le_nodup (orderedBoundaries_sorted_le text norm)
    (orderedBoundaries_nodup text norm)

theorem orderedBoundaries_le_length {text : Str} {entities : List RawEntity}
    {x : Nat}
    (hx : x ∈ orderedBoundaries text (extract_entities text entities)) :
    x ≤ text.length := by
  rcases mem_orderedBoundaries.mp hx with rfl | rfl | ⟨t, ht, h⟩
  · omega
  · omega
  · have := extract_entities_bounds text entities t ht
    rcases h with rfl | rfl <;> omega

/-- Concatenating the texts of the segments of `build_print_job`, in order,
reproduces the input text exactly — for every text and every span list. -/
theorem build_print_job_join (text : Str) (entities : List RawEntity) :
    joinTexts (build_print_job text entities) = text := by
  by_cases ht : text = []
  · subst ht; simp [build_print_job, joinTexts]
  · by_cases hn : extract_entities text entities = []
    · simp [build_print_job, ht, hn, joinTexts]
    · simp only [build_print_job, ht, hn, if_false, if_neg]
      have hsorted :
          (orderedBoundaries text (extract_entities text entities)).Sorted
            (· ≤ ·) := orderedBoundaries_sorted_le _ _
      have h0 : (0 : ℕ) ∈
          orderedBoundaries text (extract_entities text entities) :=
        mem_orderedBoundaries.mpr (Or.inl rfl)
      have hlen : text.length ∈
          orderedBoundaries text (extract_entities text entities) :=
        mem_orderedBoundaries.mpr (Or.inr (Or.inl rfl))
      obtain ⟨a, l, hal⟩ : ∃ a l,
          orderedBoundaries text (extract_entities text entities) =
            a :: l := by
        cases hcase :
            orderedBoundaries text (extract_entities text entities) with
        | nil => rw [hcase] at h0; simp at h0
        | cons a l => exact ⟨a, l, rfl⟩
      rw [hal] at hsorted h0 hlen ⊢
      have ha0 : a = 0 := sorted_head_eq_zero hsorted h0
      have hgl_mem : (a :: l).getLast (by simp) ∈ a :: l :=
        List.getLast_mem _
      have hgl_le : (a :: l).getLast (by simp) ≤ text.length := by
        apply orderedBoundaries_le_length
        rw [hal]
        exact hgl_mem
      have hle_gl : text.length ≤ (a :: l).getLast (by simp) :=
        getLast_le_of_sorted hsorted hlen _
      have hgl : (a :: l).getLast (by simp) = text.length :=
        le_antisymm hgl_le hle_gl
      rw [joinTexts_segLoop text _ l a hsorted, hgl, ha0, slice_full]

/-! ### Structure of the emitted segments: one per adjacent boundary pair -/

theorem adjPairs_mem : ∀ {l : List Nat} {p : Nat × Nat}, p ∈ adjPairs l →
    p.1 ∈ l ∧ p.2 ∈ l
  | a :: b :: rest, p, hp => by
      rw [show adjPairs (a :: b :: rest) = (a, b) :: adjPairs (b :: rest)
        from rfl] at hp
      rcases List.mem_cons.mp hp with rfl | hp2
      · exact ⟨by simp, by simp⟩
      · have := adjPairs_mem hp2
        exact ⟨List.mem_cons_of_mem _ this.1, List.mem_cons_of_mem _ this.2⟩

theorem adjPairs_pairwise : ∀ {l : List Nat}, l.Sorted (· ≤ ·) →
    (adjPairs l).Pairwise (fun p q => p.2 ≤ q.1)
  | [], _ => List.Pairwise.nil
  | [_], _ => List.Pairwise.nil
  | a :: b :: rest, hs => by
      rw [show adjPairs (a :: b :: rest) = (a, b) :: adjPairs (b :: rest)
        from rfl]
      refine List.Pairwise.cons ?_ (adjPairs_pairwise hs.of_cons)
      intro q hq
      have hq1 : q.1 ∈ b :: rest := (adjPairs_mem hq).1
      rcases List.mem_cons.mp hq1 with h | h
      · omega
      · exact List.rel_of_sorted_cons hs.of_cons _ h

theorem adjPairs_lt : ∀ {l : List Nat}, l.Sorted (· < ·) →
    ∀ p ∈ adjPairs l, p.1 < p.2
  | a :: b :: rest, hs, p, hp => by
      rw [show adjPairs (a :: b :: rest) = (a, b) :: adjPairs (b :: rest)
        from rfl] at hp
      rcases List.mem_cons.mp hp with rfl | hp2
      · exact List.rel_of_sorted_cons hs _ (by simp)
      · exact adjPairs_lt hs.of_cons p hp2

/-- On a strictly sorted, in-bounds boundary list, the segment loop skips
nothing: it emits exactly one segment per adjacent pair. -/
theorem segLoop_eq_map (text : Str) (norm : List (Nat × Nat × String)) :
    ∀ (l : List Nat), l.Sorted (· < ·) → (∀ x ∈ l, x ≤ text.length) →
      segLoop text norm l =
        (adjPairs l).map
          (fun p => ⟨slice text p.1 p.2, styleFor (coveringTypes norm p.1 p.2)⟩)
  | [], _, _ => rfl
  | [_], _, _ => rfl
  | a :: b :: rest, hs, hb => by
      have hab : a < b := List.rel_of_sorted_cons hs _ (by simp)
      have hble : b ≤ text.length := hb b (by simp)
      have hskip : ¬ (b ≤ a ∨ slice text a b = []) := by
        push_neg
        exact ⟨by omega, slice_ne_nil text hab (by omega)⟩
      show (if b ≤ a ∨ slice text a b = [] then [] else _) ++ _ = _
      rw [if_neg hskip]
      rw [show adjPairs (a :: b :: rest) = (a, b) :: adjPairs (b :: rest)
        from rfl, List.map_cons, List.singleton_append]
      congr 1
      exact segLoop_eq_map text norm (b :: rest) hs.of_cons
        (fun x hx => hb x (List.mem_cons_of_mem _ hx))

/-- Every text and span list: the segments correspond, in order, to a list of
in-bounds, strictly increasing, pairwise-disjoint ranges of the text. -/
theorem build_print_job_ranges (text : Str) (entities : List RawEntity) :
    ∃ rs : List (Nat × Nat),
      (build_print_job text entities).map Segment.text =
        rs.map (fun p => slice text p.1 p.2) ∧
      rs.Pairwise (fun p q => p.2 ≤ q.1) ∧
      ∀ p ∈ rs, p.1 < p.2 ∧ p.2 ≤ text.length := by
  by_cases ht : text = []
  · refine ⟨[], ?_, List.Pairwise.nil, by simp⟩
    subst ht; simp [build_print_job]
  · by_cases hn : extract_entities text entities = []
    · refine ⟨[(0, text.length)], ?_, List.pairwise_singleton _ _, ?_⟩
      · simp [build_print_job, ht, hn, slice_full]
      · intro p hp
        simp only [List.mem_singleton] at hp
        subst hp
        have : text.length ≠ 0 := by
          simp only [ne_eq, List.length_eq_zero]
          exact ht
        exact ⟨by omega, le_refl _⟩
    · have hsorted_lt :
          (orderedBoundaries text (extract_entities text entities)).Sorted
            (· < ·) := orderedBoundaries_sorted_lt _ _
      have hsorted_le :
          (orderedBoundaries text (extract_entities text entities)).Sorted
            (· ≤ ·) := orderedBoundaries_sorted_le _ _
      have hbound : ∀ x ∈
          orderedBoundaries text (extract_entities text entities),
          x ≤ text.length := by
        intro x hx
        exact orderedBoundaries_le_length hx
      refine ⟨adjPairs
        (orderedBoundaries text (extract_entities text entities)),
        ?_, adjPairs_pairwise hsorted_le, ?_⟩
      · simp only [build_print_job, ht, hn, if_false]
        rw [segLoop_eq_map text _ _ hsorted_lt hbound, List.map_map]
        rfl
      · intro p hp
        refine ⟨adjPairs_lt hsorted_lt p hp, ?_⟩
        exact hbound p.2 (adjPairs_mem hp).2

/-! ### The spec's "union of mapped styles" formulation

The spec states a segment's style as the union of the per-kind mapped styles
of the spans fully covering it. We define that union directly from the
spec's words and prove it coincides with the style dict the code builds. -/

/-- The kind→style mapping, one span kind at a time (spec section 4.1):
bold→emphasis, underline→underline-1, strikethrough→inverted-video,
code/pre→alternate font, blockquote→double height+width; italic and any
unknown kind map to no flag. -/
def kindStyle (ty : String) : Style :=
  if ty = "bold" then { bold := some true }
  else if ty = "underline" then { underline := some 1 }
  else if ty = "strikethrough" then { invert := some true }
  else if ty = "code" ∨ ty = "pre" then { font := some "b" }
  else if ty = "blockquote" then
    { double_height := some true, double_width := some true }
  else {}

/-- Union of two optional flags (left-biased; all contributors agree on
values, so the bias is irrelevant). -/
def optUnion {α : Type} : Option α → Option α → Option α
  | some v, _ => some v
  | none, o => o

/-- Union of two style dicts, key by key. -/
def styleUnion (s t : Style) : Style where
  bold := optUnion s.bold t.bold
  underline := optUnion s.underline t.underline
  invert := optUnion s.invert t.invert
  font := optUnion s.font t.font
  double_height := optUnion s.double_height t.double_height
  double_width := optUnion s.double_width t.double_width

/-- The union of the mapped styles of a list of span kinds. -/
def unionStyles (types : List String) : Style :=
  types.foldr (fun ty acc => styleUnion (kindStyle ty) acc) {}

theorem optUnion_some {α : Type} (v : α) (o : Option α) :
    optUnion (some v) o = some v := rfl

theorem optUnion_none {α : Type} (o : Option α) : optUnion none o = o := rfl

theorem kindStyle_bold (ty : String) :
    (kindStyle ty).bold = if ty = "bold" then some true else none := by
  unfold kindStyle
  split_ifs <;> simp_all

theorem kindStyle_underline (ty : String) :
    (kindStyle ty).underline = if ty = "underline" then some 1 else none := by
  unfold kindStyle
  split_ifs <;> simp_all

theorem kindStyle_invert (ty : String) :
    (kindStyle ty).invert =
      if ty = "strikethrough" then some true else none := by
  unfold kindStyle
  split_ifs <;> simp_all

theorem kindStyle_font (ty : String) :
    (kindStyle ty).font =
      if ty = "code" ∨ ty = "pre" then some "b" else none := by
  unfold kindStyle
  split_ifs <;> simp_all

theorem kindStyle_double_height (ty : String) :
    (kindStyle ty).double_height =
      if ty = "blockquote" then some true else none := by
  unfold kindStyle
  split_ifs <;> simp_all

theorem kindStyle_double_width (ty : String) :
    (kindStyle ty).double_width =
      if ty = "blockquote" then some true else none := by
  unfold kindStyle
  split_ifs <;> simp_all

theorem unionStyles_bold (types : List String) :
    (unionStyles types).bold =
      if "bold" ∈ types then some true else none := by
  induction types with
  | nil => rfl
  | cons ty rest ih =>
      show optUnion (kindStyle ty).bold (unionStyles rest).bold = _
      rw [kindStyle_bold, ih]
      by_cases h : ty = "bold"
      · subst h
        simp [optUnion_some]
      · have h2 : ¬ ("bold" = ty) := fun hc => h hc.symm
        simp [h, h2, optUnion_none, List.mem_cons]

theorem unionStyles_underline (types : List String) :
    (unionStyles types).underline =
      if "underline" ∈ types then some 1 else none := by
  induction types with
  | nil => rfl
  | cons ty rest ih =>
      show optUnion (kindStyle ty).underline (unionStyles rest).underline = _
      rw [kindStyle_underline, ih]
      by_cases h : ty = "underline"
      · subst h
        simp [optUnion_some]
      · have h2 : ¬ ("underline" = ty) := fun hc => h hc.symm
        simp [h, h2, optUnion_none, List.mem_cons]

theorem unionStyles_invert (types : List String) :
    (unionStyles types).invert =
      if "strikethrough" ∈ types then some true else none := by
  induction types with
  | nil => rfl
  | cons ty rest ih =>
      show optUnion (kindStyle ty).invert (unionStyles rest).invert = _
      rw [kindStyle_invert, ih]
      by_cases h : ty = "strikethrough"
      · subst h
        simp [optUnion_some]
      · have h2 : ¬ ("strikethrough" = ty) := fun hc => h hc.symm
        simp [h, h2, optUnion_none, List.mem_cons]

theorem unionStyles_font (types : List String) :
    (unionStyles types).font =
      if "code" ∈ types ∨ "pre" ∈ types then some "b" else none := by
  induction types with
  | nil => rfl
  | cons ty rest ih =>
      show optUnion (kindStyle ty).font (unionStyles rest).font = _
      rw [kindStyle_font, ih]
      by_cases h : ty = "code" ∨ ty = "pre"
      · rcases h with rfl | rfl <;> simp [optUnion_some]
      · push_neg at h
        have hc : ¬ ("code" = ty) := fun hcon => h.1 hcon.symm
        have hp : ¬ ("pre" = ty) := fun hcon => h.2 hcon.symm
        simp [h.1, h.2, hc, hp, optUnion_none, List.mem_cons]

theorem unionStyles_double_height (types : List String) :
    (unionStyles types).double_height =
      if "blockquote" ∈ types then some true else none := by
  induction types with
  | nil => rfl
  | cons ty rest ih =>
      show optUnion (kindStyle ty).double_height
        (unionStyles rest).double_height = _
      rw [kindStyle_double_height, ih]
      by_cases h : ty = "blockquote"
      · subst h
        simp [optUnion_some]
      · have h2 : ¬ ("blockquote" = ty) := fun hc => h hc.symm
        simp [h, h2, optUnion_none, List.mem_cons]

theorem unionStyles_double_width (types : List String) :
    (unionStyles types).double_width =
      if "blockquote" ∈ types then some true else none := by
  induction types with
  | nil => rfl
  | cons ty rest ih =>
      show optUnion (kindStyle ty).double_width
        (unionStyles rest).double_width = _
      rw [kindStyle_double_width, ih]
      by_cases h : ty = "blockquote"
      · subst h
        simp [optUnion_some]
      · have h2 : ¬ ("blockquote" = ty) := fun hc => h hc.symm
        simp [h, h2, optUnion_none, List.mem_cons]

/-- The style dict the code builds for a set of covering kinds is exactly the
spec's union of the individually mapped styles. -/
theorem styleFor_eq_unionStyles (types : List String) :
    styleFor types = unionStyles types := by
  ext1
  · rw [unionStyles_bold]; rfl
  · rw [unionStyles_underline]; rfl
  · rw [unionStyles_invert]; rfl
  · rw [unionStyles_font]; rfl
  · rw [unionStyles_double_height]; rfl
  · rw [unionStyles_double_width]; rfl

/-- Each emitted segment is the slice of some sub-range `[a, b)` of the text,
and its style is exactly the style of the entities covering all of `[a, b)`. -/
theorem build_print_job_mem_struct (text : Str) (entities : List RawEntity)
    {seg : Segment} (hseg : seg ∈ build_print_job text entities) :
    ∃ a b, a < b ∧ b ≤ text.length ∧ seg.text = slice text a b ∧
      seg.style =
        styleFor (coveringTypes (extract_entities text entities) a b) := by
  by_cases ht : text = []
  · rw [ht] at hseg
    simp [build_print_job] at hseg
  · by_cases hn : extract_entities text entities = []
    · simp only [build_print_job, ht, hn, if_false, if_true, if_neg,
        List.mem_singleton] at hseg
      refine ⟨0, text.length, ?_, le_refl _, ?_, ?_⟩
      · have : text.length ≠ 0 := by
          simp only [ne_eq, List.length_eq_zero]
          exact ht
        omega
      · rw [hseg, slice_full]
      · rw [hseg, hn]
        rfl
    · have hsorted_lt :
          (orderedBoundaries text (extract_entities text entities)).Sorted
            (· < ·) := orderedBoundaries_sorted_lt _ _
      have hbound : ∀ x ∈
          orderedBoundaries text (extract_entities text entities),
          x ≤ text.length := by
        intro x hx
        exact orderedBoundaries_le_length hx
      simp only [build_print_job, ht, hn, if_false] at hseg
      rw [segLoop_eq_map text _ _ hsorted_lt hbound] at hseg
      rcases List.mem_map.mp hseg with ⟨p, hp, hpe⟩
      exact ⟨p.1, p.2, adjPairs_lt hsorted_lt p hp,
        hbound p.2 (adjPairs_mem hp).2, by rw [← hpe], by rw [← hpe]⟩

/-! ### Claim theorems about the segmenter -/

/-- A span list whose members are all valid entities with UTF-16 ranges
lying fully inside the text. -/
def InBoundsSpans (text : Str) (S : List RawEntity) : Prop :=
  ∀ e ∈ S, ∃ ty off len, e = .valid ty off len ∧ 0 ≤ off ∧ 0 ≤ len ∧
    off + len ≤ (totalCu text : Int)

/-- Pairwise non-overlapping UTF-16 ranges. -/
def NonOverlappingSpans (S : List RawEntity) : Prop :=
  S.Pairwise (fun e1 e2 => ∀ ty1 o1 l1 ty2 o2 l2, e1 = .valid ty1 o1 l1 →
    e2 = .valid ty2 o2 l2 → o1 + l1 ≤ o2 ∨ o2 + l2 ≤ o1)

/-- C1: for every text `T` and every non-overlapping, in-bounds span list
`S`, concatenating the texts of the segments of `build_print_job T S` in
order reproduces `T` exactly, and the segments correspond, in order, to
pairwise non-overlapping ranges of `T`. -/
theorem claim_C1_concat_reconstruct_disjoint (text : Str)
    (S : List RawEntity) (hin : InBoundsSpans text S)
    (hno : NonOverlappingSpans S) :
    joinTexts (build_print_job text S) = text ∧
    ∃ rs : List (Nat × Nat),
      (build_print_job text S).map Segment.text =
        rs.map (fun p => slice text p.1 p.2) ∧
      rs.Pairwise (fun p q => p.2 ≤ q.1 ∨ q.2 ≤ p.1) ∧
      ∀ p ∈ rs, p.1 < p.2 ∧ p.2 ≤ text.length := by
  refine ⟨build_print_job_join text S, ?_⟩
  obtain ⟨rs, h1, h2, h3⟩ := build_print_job_ranges text S
  exact ⟨rs, h1, h2.imp (fun h => Or.inl h), h3⟩

/-- Witness for C1 at the text `"Hello world"` with two disjoint in-bounds
spans. -/
theorem claim_C1_witness :
    joinTexts (build_print_job "Hello world".toList
      [.valid "bold" 0 5, .valid "code" 6 5]) = "Hello world".toList ∧
    ∃ rs : List (Nat × Nat),
      (build_print_job "Hello world".toList
        [.valid "bold" 0 5, .valid "code" 6 5]).map Segment.text =
        rs.map (fun p => slice "Hello world".toList p.1 p.2) ∧
      rs.Pairwise (fun p q => p.2 ≤ q.1 ∨ q.2 ≤ p.1) ∧
      ∀ p ∈ rs, p.1 < p.2 ∧ p.2 ≤ ("Hello world".toList).length := by
  apply claim_C1_concat_reconstruct_disjoint
  · intro e he
    simp only [List.mem_cons, List.not_mem_nil, or_false] at he
    rcases he with rfl | rfl
    · exact ⟨"bold", 0, 5, rfl, by decide, by decide, by decide⟩
    · exact ⟨"code", 6, 5, rfl, by decide, by decide, by decide⟩
  · refine List.Pairwise.cons ?_ (List.pairwise_singleton _ _)
    intro e2 he2
    simp only [List.mem_singleton] at he2
    subst he2
    intro ty1 o1 l1 ty2 o2 l2 h1 h2
    cases h1
    cases h2
    left
    decide

/-- C2: every emitted segment's style is exactly the union of the mapped
styles of the (converted) spans fully covering its range
(`span.start ≤ seg.start` and `span.end ≥ seg.end`); in particular,
`"Hello world"` with a bold span (UTF-16 offset 0, length 5) and a code
span (offset 6, length 5) yields `"Hello"` bold, `" "` unstyled, and
`"world"` in font b. -/
theorem claim_C2_full_cover_styles :
    (∀ (text : Str) (entities : List RawEntity),
      ∀ seg ∈ build_print_job text entities,
      ∃ a b, a < b ∧ b ≤ text.length ∧ seg.text = slice text a b ∧
        seg.style =
          unionStyles (coveringTypes (extract_entities text entities) a b)) ∧
    build_print_job "Hello world".toList
      [.valid "bold" 0 5, .valid "code" 6 5] =
      [⟨"Hello".toList, { bold := some true }⟩, ⟨" ".toList, {}⟩,
       ⟨"world".toList, { font := some "b" }⟩] := by
  constructor
  · intro text entities seg hseg
    obtain ⟨a, b, h1, h2, h3, h4⟩ :=
      build_print_job_mem_struct text entities hseg
    exact ⟨a, b, h1, h2, h3, h4.trans (styleFor_eq_unionStyles _)⟩
  · decide

/-- Witness for C2 at the `"Hello"` segment of the example. -/
theorem claim_C2_witness :
    ∃ a b, a < b ∧ b ≤ ("Hello world".toList).length ∧
      (⟨"Hello".toList, { bold := some true }⟩ : Segment).text =
        slice "Hello world".toList a b ∧
      (⟨"Hello".toList, { bold := some true }⟩ : Segment).style =
        unionStyles (coveringTypes
          (extract_entities "Hello world".toList
            [.valid "bold" 0 5, .valid "code" 6 5]) a b) :=
  claim_C2_full_cover_styles.1 "Hello world".toList
    [.valid "bold" 0 5, .valid "code" 6 5]
    ⟨"Hello".toList, { bold := some true }⟩ (by decide)

/-- C8 counterexample: on the empty text with zero spans, `build_print_job`
returns no segment at all, not one segment carrying the text. -/
theorem claim_C8_counterexample :
    build_print_job ([] : Str) [] = [] ∧
    ∀ seg : Segment, build_print_job ([] : Str) [] ≠ [seg] := by
  refine ⟨rfl, ?_⟩
  intro seg h
  rw [show build_print_job ([] : Str) [] = [] from rfl] at h
  exact List.cons_ne_nil seg [] h.symm

/-- C8 amended: for every NON-EMPTY text `T`, `build_print_job T []` returns
exactly one segment whose text is `T` and whose style is empty. -/
theorem claim_C8_amended (text : Str) (h : text ≠ []) :
    build_print_job text [] = [⟨text, Style.empty⟩] := by
  have hext : extract_entities text [] = [] := rfl
  simp [build_print_job, h, hext]
  rfl

/-- Witness for the amended C8 at text `"a"`. -/
theorem claim_C8_witness :
    build_print_job "a".toList [] = [⟨"a".toList, Style.empty⟩] :=
  claim_C8_amended "a".toList (by decide)

/-- C9: span conversion never leaves the text bounds (out-of-range spans are
clamped), only strictly positive in-bounds ranges survive normalization
(zero/negative clamped spans contribute nothing), and a malformed span is
skipped while all remaining spans are still processed. `build_print_job`
is a total function, so it never fails. -/
theorem claim_C9_malformed_and_clamping :
    (∀ (text : Str) (off len : Int),
      (utf16_range_to_py_slice text off len).1 ≤
        (utf16_range_to_py_slice text off len).2 ∧
      (utf16_range_to_py_slice text off len).2 ≤ text.length) ∧
    (∀ (text : Str) (entities : List RawEntity),
      ∀ x ∈ extract_entities text entities,
        x.1 < x.2.1 ∧ x.2.1 ≤ text.length) ∧
    (∀ (text : Str) (before after : List RawEntity),
      extract_entities text (before ++ .malformed :: after) =
        extract_entities text (before ++ after)) :=
  ⟨utf16_range_bounds, extract_entities_bounds,
    extract_entities_skip_malformed⟩

/-- Witness for C9: a wildly out-of-range span on `"abc"` is clamped to the
full text and survives with a strictly positive range. -/
theorem claim_C9_witness :
    ((0 : Nat), (3 : Nat), "bold").1 <
      ((0 : Nat), (3 : Nat), "bold").2.1 ∧
    ((0 : Nat), (3 : Nat), "bold").2.1 ≤ ("abc".toList).length :=
  claim_C9_malformed_and_clamping.2.1 "abc".toList
    [.valid "bold" (-5) 100] (0, 3, "bold") (by decide)

/-! ### Rendering engine (src/printer.py): device command traces

`AsyncPrinter`'s blocking render methods are modelled by the ordered list of
commands they issue to the underlying escpos printer object. Each `Cmd`
constructor corresponds to one kind of call site in `printer.py`. -/

/-- One command sent to the device. -/
inductive Cmd where
  /-- `printer._raw(bytes)` -/
  | raw (bs : List Nat)
  /-- `printer.set(**set_kwargs)` from `_apply_segment_style` (partial:
  only the keys present in the segment's style). -/
  | setStyle (s : Style)
  /-- the full-defaults `printer.set(...)` call of `_reset_style` -/
  | setDefaults
  /-- `printer.set(font="b")` in `_print_header` -/
  | setFontB
  /-- `printer.set(density=config.IMAGE_DENSITY)` in `_do_print_image` -/
  | setDensity
  /-- `printer.text(...)` -/
  | textOut (s : Str)
  /-- `printer.textln(...)` -/
  | textln (s : Str)
  /-- `printer.qr(data, native=..., ...)` -/
  | qr (data : Str) (native : Bool)
  /-- `printer.image(img, ...)` -/
  | image
  /-- `printer.cut(...)` via `_cut` (the dialect fallback chain issues one
  accepted cut call) -/
  | cut
  deriving DecidableEq, Repr

/-- The configuration values the traces depend on. -/
structure PrinterCfg where
  /-- `config.CODEPAGE_ID` -/
  codepage : Nat
  /-- `config.HEADER_LINE_WIDTH` -/
  headerWidth : Nat
  deriving DecidableEq, Repr

/-- `HeaderInfo` dataclass of `print_tasks.py`. -/
structure HeaderInfo where
  timestamp : Str
  user : Str
  deriving DecidableEq, Repr

/-- `TextPayload.content : str | PrintJob`. -/
inductive TextContent where
  | plain (s : Str)
  | segments (job : PrintJob)
  deriving DecidableEq, Repr

/-- The payload union of `print_tasks.py`:
`TextPayload | QrPayload | ImagePayload`. -/
inductive Payload where
  | text (content : TextContent)
  | qr (data : Str)
  | image (path : Str)
  deriving DecidableEq, Repr

/-- `PrintTask` dataclass: optional header + payload. -/
structure PrintTask where
  header : Option HeaderInfo
  payload : Payload
  deriving DecidableEq, Repr

/-- `_reset_style`: one full-defaults `printer.set(...)` call. -/
def reset_style_trace : List Cmd := [.setDefaults]

/-- `_reinitialize_printer`: ESC @ (initialize), ESC t <codepage>
(re-select code page), then the baseline style reset. -/
def reinitialize_printer_trace (cfg : PrinterCfg) : List Cmd :=
  [.raw [0x1b, 0x40], .raw [0x1b, 0x74, cfg.codepage]] ++ reset_style_trace

/-- `_apply_segment_style`: `printer.set(**set_kwargs)` is called only when
`set_kwargs` is non-empty, i.e. when the segment's style dict has at least
one key. -/
def apply_segment_style_trace (seg : Segment) : List Cmd :=
  if seg.style = {} then [] else [.setStyle seg.style]

/-- `_print_header`: compact font, `"{timestamp} {user}"` truncated to the
configured width, a dash rule of that width, a blank line, then the style
reset. -/
def print_header_trace (cfg : PrinterCfg) (h : HeaderInfo) : List Cmd :=
  [.setFontB,
   .textln ((h.timestamp ++ [' '] ++ h.user).take cfg.headerWidth),
   .textln (List.replicate cfg.headerWidth '-'),
   .textln []] ++ reset_style_trace

/-- The segment loop of `_do_print_task` (text payload with a segment
list): skip empty-text segments; otherwise apply the segment style, write
the text, then always reset the style. -/
def seg_list_trace : PrintJob → List Cmd
  | [] => []
  | seg :: rest =>
      (if seg.text = [] then []
       else apply_segment_style_trace seg ++ [.textOut seg.text] ++
         reset_style_trace) ++ seg_list_trace rest

/-- The device commands of `_do_print_image` on the happy path: set print
density, emit the raster, then the full re-initialization. (The PIL-side
transformations and the temp-file cleanup are modelled separately.) -/
def do_print_image_trace (cfg : PrinterCfg) : List Cmd :=
  [.setDensity, .image] ++ reinitialize_printer_trace cfg

/-- The body of `_do_print_task`, by payload kind. For a QR payload the
source calls `printer.qr(data, native=False, size=..., image_arguments=...)`;
the `TypeError` fallback `printer.qr(data, size=size)` targets escpos
versions without the `native` kwarg, whose `qr` defaults to software
rendering (`native=False`), so both call sites emit a software-rendered QR. -/
def body_trace (cfg : PrinterCfg) : Payload → List Cmd
  | .text (.plain s) => [.textln s]
  | .text (.segments job) => seg_list_trace job
  | .qr data => .qr data false :: reinitialize_printer_trace cfg
  | .image _ => do_print_image_trace cfg

/-- `_do_print_task`: optional header, body, then the cut. -/
def do_print_task_trace (cfg : PrinterCfg) (task : PrintTask) : List Cmd :=
  (match task.header with
   | some h => print_header_trace cfg h
   | none => []) ++ body_trace cfg task.payload ++ [.cut]

theorem qr_not_mem_seg_list_trace (job : PrintJob) (d : Str) (n : Bool) :
    Cmd.qr d n ∉ seg_list_trace job := by
  induction job with
  | nil => simp [seg_list_trace]
  | cons seg rest ih =>
      simp only [seg_list_trace, List.mem_append]
      rintro (h | h)
      · by_cases htext : seg.text = []
        · simp [htext] at h
        · rw [if_neg htext] at h
          simp only [apply_segment_style_trace, reset_style_trace,
            List.mem_append] at h
          rcases h with (h | h) | h
          · by_cases hstyle : seg.style = {} <;> simp [hstyle] at h
          · simp at h
          · simp at h
      · exact ih h

/-- C4: the engine only ever invokes the device `qr` operation with native
rasterization disabled, and a QR task's trace is exactly: the software
QR, then the full re-initialization (initialize prefix, codepage
re-select, baseline style reset), then the cut — so the re-init precedes
the cut and anything that follows. -/
theorem claim_C4_qr_software_then_reinit :
    (∀ (cfg : PrinterCfg) (task : PrintTask) (d : Str) (n : Bool),
      Cmd.qr d n ∈ do_print_task_trace cfg task → n = false) ∧
    (∀ (cfg : PrinterCfg) (data : Str),
      do_print_task_trace cfg ⟨none, .qr data⟩ =
        [.qr data false, .raw [0x1b, 0x40], .raw [0x1b, 0x74, cfg.codepage],
         .setDefaults, .cut]) := by
  constructor
  · intro cfg task d n hmem
    rcases task with ⟨hdr, payload⟩
    simp only [do_print_task_trace, List.mem_append] at hmem
    rcases hmem with (hmem | hmem) | hmem
    · cases hdr with
      | none => simp at hmem
      | some h => simp [print_header_trace, reset_style_trace] at hmem
    · cases payload with
      | text c =>
          cases c with
          | plain s => simp [body_trace] at hmem
          | segments job =>
              exact absurd hmem (qr_not_mem_seg_list_trace job d n)
      | qr data =>
          simp only [body_trace, List.mem_cons] at hmem
          rcases hmem with hmem | hmem
          · rw [Cmd.qr.injEq] at hmem
            exact hmem.2
          · simp [reinitialize_printer_trace, reset_style_trace] at hmem
      | image p => simp [body_trace, do_print_image_trace,
          reinitialize_printer_trace, reset_style_trace] at hmem
    · simp at hmem
  · intro cfg data
    rfl

/-- Witness for C4: the QR payload `"Привет"` rendered with no header uses
the software raster path. -/
theorem claim_C4_witness : false = false :=
  claim_C4_qr_software_then_reinit.1 ⟨6, 42⟩
    ⟨none, .qr "Привет".toList⟩ "Привет".toList false (by decide)

/-- Scans a command trace: every `text` write is immediately followed by a
full baseline style reset. -/
def resetAfterText : List Cmd → Bool
  | [] => true
  | .textOut _ :: rest =>
      match rest with
      | .setDefaults :: _ => resetAfterText rest
      | _ => false
  | _ :: rest => resetAfterText rest

theorem resetAfterText_seg_list (job : PrintJob) (tail : List Cmd)
    (htail : resetAfterText tail = true) :
    resetAfterText (seg_list_trace job ++ tail) = true := by
  induction job with
  | nil => simpa [seg_list_trace]
  | cons seg rest ih =>
      simp only [seg_list_trace]
      by_cases htext : seg.text = []
      · simpa [htext] using ih
      · rw [if_neg htext]
        by_cases hstyle : seg.style = {}
        · simp only [apply_segment_style_trace, if_pos hstyle,
            reset_style_trace, List.nil_append, List.append_assoc,
            List.cons_append, List.singleton_append]
          exact ih
        · simp only [apply_segment_style_trace, if_neg hstyle,
            reset_style_trace, List.append_assoc, List.cons_append,
            List.singleton_append, List.nil_append]
          exact ih

/-- C6: in every task trace — in particular a segment-list body — each
segment text write is immediately followed by the full baseline style
reset, including after the last segment, whether or not the segment's
style is empty (i.e. whether or not the partial style application was
skipped). -/
theorem claim_C6_reset_after_every_segment (cfg : PrinterCfg)
    (task : PrintTask) :
    resetAfterText (do_print_task_trace cfg task) = true := by
  rcases task with ⟨hdr, payload⟩
  have hbody : resetAfterText (body_trace cfg payload ++ [Cmd.cut]) = true := by
    cases payload with
    | text c =>
        cases c with
        | plain s => rfl
        | segments job => exact resetAfterText_seg_list job [Cmd.cut] rfl
    | qr data => rfl
    | image p => rfl
  cases hdr with
  | none => simpa [do_print_task_trace] using hbody
  | some h =>
      simp only [do_print_task_trace, print_header_trace,
        reset_style_trace, List.append_assoc, List.cons_append,
        List.singleton_append, List.nil_append]
      simpa [resetAfterText] using hbody

/-! ### The retry loop of `AsyncPrinter.print_task` -/

/-- One pass of `for attempt in range(3)` in `print_task`.
`outcomes n = true` means the blocking `_do_print_task` call of attempt
index `n` succeeds. Returns `(attempts made, delays slept, success)`;
when attempt index 2 fails the exception is re-raised (success `false`)
and the task is dropped by `_process_queue`'s catch-all. The fuel is the
remaining iterations of `range(3)`. -/
def retryGo (outcomes : Nat → Bool) (attempt sleeps : Nat) :
    Nat → Nat × Nat × Bool
  | 0 => (attempt, sleeps, false)
  | fuel + 1 =>
      if outcomes attempt then (attempt + 1, sleeps, true)
      else if attempt = 2 then (attempt + 1, sleeps, false)
      else retryGo outcomes (attempt + 1) (sleeps + 1) fuel

/-- `print_task`'s retry loop: at most 3 attempts, a fixed `0.5 s` sleep
between consecutive attempts (counted in the second component). -/
def print_task_retry (outcomes : Nat → Bool) : Nat × Nat × Bool :=
  retryGo outcomes 0 0 3

/-- C3: for every outcome sequence, `print_task` makes at most 3 attempts;
fail-fail-succeed makes exactly 3 attempts (with 2 inter-attempt delays)
and reports success; fail-fail-fail makes exactly 3 attempts and reports
failure (the error propagates and the task is dropped with no further
attempt). -/
theorem claim_C3_retry_three_attempts (outcomes : Nat → Bool) :
    (print_task_retry outcomes).1 ≤ 3 ∧
    (outcomes 0 = false → outcomes 1 = false → outcomes 2 = true →
      print_task_retry outcomes = (3, 2, true)) ∧
    (outcomes 0 = false → outcomes 1 = false → outcomes 2 = false →
      print_task_retry outcomes = (3, 2, false)) := by
  refine ⟨?_, ?_, ?_⟩
  · cases h0 : outcomes 0 <;> cases h1 : outcomes 1 <;>
      cases h2 : outcomes 2 <;>
      simp [print_task_retry, retryGo, h0, h1, h2]
  · intro h0 h1 h2
    simp [print_task_retry, retryGo, h0, h1, h2]
  · intro h0 h1 h2
    simp [print_task_retry, retryGo, h0, h1, h2]

/-- Witness for C3: attempts 1 and 2 fail, attempt 3 succeeds — exactly 3
attempts, 2 delays, success. -/
theorem claim_C3_witness :
    print_task_retry (fun n => n == 2) = (3, 2, true) :=
  (claim_C3_retry_three_attempts (fun n => n == 2)).2.1 rfl rfl rfl

/-! ### The image transformation pipeline of `_do_print_image` -/

/-- A transformation applied to the PIL image, in application order. -/
inductive ImgOp where
  | rotate90cw
  | resize (w : Nat)
  | grayscale
  | contrast
  | sharpness
  | brightness
  | dither
  deriving DecidableEq, Repr

/-- A PIL image, abstracted to its dimensions plus the ordered history of
transformations applied to it. -/
structure Img where
  width : Nat
  height : Nat
  ops : List ImgOp
  deriving DecidableEq, Repr

/-- The configuration consumed by `_do_print_image` / `_enhance_image`.
The float comparisons `config.IMAGE_CONTRAST != 1.0` (etc.) are modelled
as the Booleans they evaluate to. -/
structure ImageCfg where
  /-- `config.IMAGE_PRINT_WIDTH` (384 by default) -/
  targetWidth : Nat
  /-- `config.IMAGE_ENHANCE_ENABLED` -/
  enhanceEnabled : Bool
  /-- `config.IMAGE_GRAYSCALE` -/
  grayscale : Bool
  /-- `config.IMAGE_CONTRAST != 1.0` -/
  contrastOn : Bool
  /-- `config.IMAGE_SHARPNESS != 1.0` -/
  sharpnessOn : Bool
  /-- `config.IMAGE_BRIGHTNESS != 1.0` -/
  brightnessOn : Bool
  /-- `config.IMAGE_DITHERING` -/
  dithering : Bool
  deriving DecidableEq, Repr

/-- `img.rotate(-90, expand=True)`: swap dimensions. -/
def rotateCW (img : Img) : Img :=
  ⟨img.height, img.width, img.ops ++ [.rotate90cw]⟩

/-- `img.resize((target_width, new_height), LANCZOS)` with
`new_height = int(img.height * (target_width / img.width))` (the float
rounding is modelled by natural division; the claims only concern the
operation order). -/
def resizeTo (img : Img) (w : Nat) : Img :=
  ⟨w, img.height * w / img.width, img.ops ++ [.resize w]⟩

/-- `_enhance_image`: grayscale, contrast, sharpness, brightness, then
Floyd–Steinberg dithering to 1-bit, each step gated by its config flag. -/
def enhance_image (cfg : ImageCfg) (img : Img) : Img :=
  let i1 := if cfg.grayscale then
    { img with ops := img.ops ++ [.grayscale] } else img
  let i2 := if cfg.contrastOn then
    { i1 with ops := i1.ops ++ [.contrast] } else i1
  let i3 := if cfg.sharpnessOn then
    { i2 with ops := i2.ops ++ [.sharpness] } else i2
  let i4 := if cfg.brightnessOn then
    { i3 with ops := i3.ops ++ [.brightness] } else i3
  if cfg.dithering then { i4 with ops := i4.ops ++ [.dither] } else i4

/-- The transformation pipeline of `_do_print_image`: rotate landscape
images 90° clockwise, resize to the target width when the width differs,
then (if enabled) enhance. -/
def do_print_image_pipeline (cfg : ImageCfg) (img : Img) : Img :=
  let i1 := if img.height < img.width then rotateCW img else img
  let i2 := if i1.width ≠ cfg.targetWidth then resizeTo i1 cfg.targetWidth
    else i1
  if cfg.enhanceEnabled then enhance_image cfg i2 else i2

theorem enhance_image_ops (cfg : ImageCfg) (img : Img) :
    (enhance_image cfg img).ops = img.ops ++
      ((if cfg.grayscale then [ImgOp.grayscale] else []) ++
       (if cfg.contrastOn then [ImgOp.contrast] else []) ++
       (if cfg.sharpnessOn then [ImgOp.sharpness] else []) ++
       (if cfg.brightnessOn then [ImgOp.brightness] else []) ++
       (if cfg.dithering then [ImgOp.dither] else [])) := by
  unfold enhance_image
  by_cases h1 : cfg.grayscale <;> by_cases h2 : cfg.contrastOn <;>
    by_cases h3 : cfg.sharpnessOn <;> by_cases h4 : cfg.brightnessOn <;>
    by_cases h5 : cfg.dithering <;> simp [h1, h2, h3, h4, h5]

/-- C5: the operations applied to an image are exactly, in this order:
the clockwise rotation (only when the image is wider than tall), then the
resize (when the — possibly rotated — width differs from the target),
then, when enhancement is enabled, grayscale, contrast, sharpness,
brightness, and finally dithering. Rotation precedes resizing, resizing
precedes every enhancement step, and dithering is last. -/
theorem claim_C5_image_pipeline_order (cfg : ImageCfg) (w h : Nat) :
    (do_print_image_pipeline cfg ⟨w, h, []⟩).ops =
      (if h < w then [ImgOp.rotate90cw] else []) ++
      ((if (if h < w then h else w) ≠ cfg.targetWidth then
        [ImgOp.resize cfg.targetWidth] else []) ++
      (if cfg.enhanceEnabled then
        ((if cfg.grayscale then [ImgOp.grayscale] else []) ++
         (if cfg.contrastOn then [ImgOp.contrast] else []) ++
         (if cfg.sharpnessOn then [ImgOp.sharpness] else []) ++
         (if cfg.brightnessOn then [ImgOp.brightness] else []) ++
         (if cfg.dithering then [ImgOp.dither] else []))
       else [])) := by
  unfold do_print_image_pipeline
  by_cases hr : h < w <;> by_cases he : cfg.enhanceEnabled <;>
    by_cases hw : (if h < w then h else w) ≠ cfg.targetWidth <;>
    simp [hr, he, hw, rotateCW, resizeTo, enhance_image_ops] at * <;>
    simp [hr, he, hw, rotateCW, resizeTo, enhance_image_ops]

/-! ### Temp-file cleanup in `_do_print_image` -/

/-- One execution step of `_do_print_image`, in order. -/
inductive ImgStep where
  /-- `Image.open(image_path).convert("RGB")` -/
  | openImg
  /-- the rotate / resize / enhance transformations -/
  | transform
  /-- `printer.set(density=...)` and `printer.image(...)` -/
  | deviceWrite
  /-- `_reinitialize_printer()` -/
  | reinit
  /-- `Path(image_path).unlink(missing_ok=True)` in the `finally` block -/
  | unlink
  /-- the `except` around the unlink: the deletion failure is logged -/
  | unlinkFailLogged
  deriving DecidableEq, Repr

/-- Failure injection for one `_do_print_image` run: which stage raises. -/
structure ImageRunEnv where
  openFails : Bool
  transformFails : Bool
  deviceFails : Bool
  unlinkFails : Bool
  deriving DecidableEq, Repr

/-- The outcome of the `try` body alone (decode, transform, device write);
it does not depend on the cleanup. -/
def image_body_outcome (env : ImageRunEnv) : Except Unit Unit :=
  if env.openFails then .error ()
  else if env.transformFails then .error ()
  else if env.deviceFails then .error ()
  else .ok ()

/-- `_do_print_image` as steps plus outcome: the `try` body runs until its
first failing stage; the `finally` block then attempts the unlink exactly
once, and an unlink failure is caught and logged, leaving the outcome
unchanged. -/
def do_print_image_run (env : ImageRunEnv) :
    List ImgStep × Except Unit Unit :=
  let body : List ImgStep × Except Unit Unit :=
    if env.openFails then ([.openImg], .error ())
    else if env.transformFails then ([.openImg, .transform], .error ())
    else if env.deviceFails then
      ([.openImg, .transform, .deviceWrite], .error ())
    else ([.openImg, .transform, .deviceWrite, .reinit], .ok ())
  let cleanup : List ImgStep :=
    if env.unlinkFails then [.unlink, .unlinkFailLogged] else [.unlink]
  (body.1 ++ cleanup, body.2)

/-- C7: on every exit path of `_do_print_image` — success, or failure at
decode, transform or device write — the transient file deletion is
attempted exactly once, and a failure of the deletion itself never changes
the run's outcome (it is logged only). -/
theorem claim_C7_cleanup_exactly_once (env : ImageRunEnv) :
    (do_print_image_run env).1.count ImgStep.unlink = 1 ∧
    (do_print_image_run env).2 = image_body_outcome env ∧
    (do_print_image_run { env with unlinkFails := true }).2 =
      (do_print_image_run { env with unlinkFails := false }).2 := by
  rcases env with ⟨o, t, d, u⟩
  cases o <;> cases t <;> cases d <;> cases u <;> exact ⟨rfl, rfl, rfl⟩

/-- Witness for C7 (the theorem's only binder is the environment; this
instantiates it at a run whose device write and unlink both fail). -/
theorem claim_C7_witness :
    (do_print_image_run ⟨false, false, true, true⟩).1.count
      ImgStep.unlink = 1 ∧
    (do_print_image_run ⟨false, false, true, true⟩).2 =
      image_body_outcome ⟨false, false, true, true⟩ ∧
    (do_print_image_run ⟨false, false, true, true⟩).2 =
      (do_print_image_run ⟨false, false, true, false⟩).2 :=
  claim_C7_cleanup_exactly_once ⟨false, false, true, true⟩

/-! ### `message_to_queue_item` (src/formatter.py) -/

/-- Python `str.strip()` whitespace (the ASCII whitespace characters;
Python also strips other Unicode space characters, which none of the
claims depend on). -/
def isPySpace (c : Char) : Bool :=
  c = ' ' || c = '\t' || c = '\n' || c = '\r' ||
  c.toNat = 0x0b || c.toNat = 0x0c

/-- `text.strip()`: drop leading and trailing whitespace. -/
def pyStrip (s : Str) : Str :=
  ((s.dropWhile isPySpace).reverse.dropWhile isPySpace).reverse

/-- An aiogram `Message`, reduced to the four attributes
`message_to_queue_item` reads. `none` models both a missing attribute and
a non-`list`/`tuple` value (the `isinstance` guards). -/
structure TgMessage where
  text : Option Str
  caption : Option Str
  entities : Option (List RawEntity)
  caption_entities : Option (List RawEntity)

/-- `(message.text or message.caption or "") or ""`: the first truthy
(non-`None`, non-empty) of text and caption, else the empty string. -/
def msgText (m : TgMessage) : Str :=
  match m.text with
  | some t => if t ≠ [] then t else m.caption.getD []
  | none => m.caption.getD []

/-- The entity extraction of `message_to_queue_item`: `message.entities`
when it is a list, else `message.caption_entities` when it is a list,
else `[]`. -/
def msgEntities (m : TgMessage) : List RawEntity :=
  match m.entities with
  | some l => l
  | none => m.caption_entities.getD []

/-- `QueueItem = Union[str, PrintJob]`. -/
inductive QueueItem where
  | plain (s : Str)
  | job (j : PrintJob)
  deriving DecidableEq, Repr

/-- `message_to_queue_item`: stripped plain text when there are no usable
entities, otherwise the segment list built from the unstripped text. -/
def message_to_queue_item (m : TgMessage) : QueueItem :=
  if msgEntities m = [] then .plain (pyStrip (msgText m))
  else .job (build_print_job (msgText m) (msgEntities m))

theorem pyStrip_all_space {s : Str} (h : ∀ c ∈ s, isPySpace c = true) :
    pyStrip s = [] := by
  unfold pyStrip
  have h1 : s.dropWhile isPySpace = [] := by
    rw [List.dropWhile_eq_nil_iff]
    exact h
  rw [h1]
  rfl

/-- C10: `message_to_queue_item` is asymmetric about whitespace. Without
entities it returns the stripped text (so a whitespace-only text yields
the empty string); with at least one entity the unstripped text is passed
to segmentation, and the emitted segments concatenate back to the
unstripped text, preserving the surrounding whitespace. -/
theorem claim_C10_strip_asymmetry (m : TgMessage) :
    (msgEntities m = [] →
      message_to_queue_item m = .plain (pyStrip (msgText m)) ∧
      ((∀ c ∈ msgText m, isPySpace c = true) →
        message_to_queue_item m = .plain [])) ∧
    (msgEntities m ≠ [] →
      message_to_queue_item m =
        .job (build_print_job (msgText m) (msgEntities m)) ∧
      joinTexts (build_print_job (msgText m) (msgEntities m)) =
        msgText m) := by
  constructor
  · intro hempty
    have hplain : message_to_queue_item m = .plain (pyStrip (msgText m)) := by
      unfold message_to_queue_item
      rw [if_pos hempty]
    exact ⟨hplain, fun hspace => by rw [hplain, pyStrip_all_space hspace]⟩
  · intro hne
    refine ⟨?_, build_print_job_join _ _⟩
    unfold message_to_queue_item
    rw [if_neg hne]

/-- Witness for C10: a whitespace-only message without entities becomes
the empty string; a whitespace-padded message with a bold entity keeps
its padding and is segmented. -/
theorem claim_C10_witness :
    message_to_queue_item ⟨some "   ".toList, none, none, none⟩ =
      .plain [] ∧
    message_to_queue_item
      ⟨some " a ".toList, none, some [.valid "bold" 0 1], none⟩ =
      .job (build_print_job " a ".toList [.valid "bold" 0 1]) :=
  ⟨((claim_C10_strip_asymmetry
      ⟨some "   ".toList, none, none, none⟩).1 rfl).2 (by decide),
   ((claim_C10_strip_asymmetry
      ⟨some " a ".toList, none, some [.valid "bold" 0 1], none⟩).2
      (by decide)).1⟩

end JotPrint
